import Mathlib

/- Shallow embedding of the compact U(1) lattice gauge theory simulator
   from src/lattice.rs and src/phasevector.rs.  Floating-point values are
   modelled as real numbers.  Fallible operations live in an error monad:
   an out-of-bounds vector access (a Rust panic) is distinguished from
   running out of fuel while unrolling the unbounded rejection loop. -/

namespace LGT

/-- Failure kinds: an out-of-bounds vector access (a Rust panic), or
exhaustion of the fuel bounding the unrolling of the rejection loop. -/
inductive Err where
  | oob : Err
  | fuel : Err
  deriving DecidableEq

/-- Model of the fastrand generator: one abstract tape of float draws and one
of boolean draws, with a single position counter advanced by every draw. -/
structure RngState where
  f64s : ℕ → ℝ
  bools : ℕ → Bool
  pos : ℕ

/-- Draw of rng.f64(): the next float on the tape, advancing the counter. -/
def rngF64 (s : RngState) : ℝ × RngState :=
  (s.f64s s.pos, { s with pos := s.pos + 1 })

/-- Draw of rng.bool(): the next boolean on the tape, advancing the counter. -/
def rngBool (s : RngState) : Bool × RngState :=
  (s.bools s.pos, { s with pos := s.pos + 1 })

/-- State reached after n further draws. -/
def RngState.advance (s : RngState) (n : ℕ) : RngState :=
  { s with pos := s.pos + n }

/-- Embedding of the UNIT_VECTORS constant, the table
[[1,0,0,0],[0,1,0,0],[0,0,1,0],[0,0,0,1]]: row m, column c holds 1 exactly
when m = c. -/
def UNIT_VECTORS (m c : ℕ) : ℕ :=
  if m = c then 1 else 0

/-- Embedding of the constant ACCEPTANCE_CONSTANT: f64 = 0.2105137. -/
noncomputable def ACCEPTANCE_CONSTANT : ℝ := 0.2105137

/-- Embedding of struct PhaseVector: the array of four phases, one per axis.
The axis index is a natural number; the source only ever indexes it with the
literals 0..3. -/
structure PhaseVector where
  phases : ℕ → ℝ

/-- Embedding of PhaseVector::new_uniform: all phases 0.0. -/
def PhaseVector.new_uniform : PhaseVector :=
  ⟨fun _ => 0⟩

/-- Embedding of struct Lattice: the 4-dimensional array of phase vectors
together with the width.  Site reads go through Lattice.get, which performs
the bound checks of the four nested Vec layers. -/
structure Lattice where
  lattice : ℕ → ℕ → ℕ → ℕ → PhaseVector
  width : ℕ

/-- Indexing self.lattice[i][j][k][l].phases[m]: each of the four Vec layers
has length width, so an index outside [0, width) is a panic. -/
def Lattice.get (L : Lattice) (i j k l m : ℕ) : Except Err ℝ :=
  if i < L.width ∧ j < L.width ∧ k < L.width ∧ l < L.width then
    .ok ((L.lattice i j k l).phases m)
  else
    .error .oob

/-- Writing self.lattice[i][j][k][l].phases[m] = v at in-range loop indices. -/
def Lattice.set (L : Lattice) (i j k l m : ℕ) (v : ℝ) : Lattice :=
  { L with
    lattice := fun a b c d =>
      if a = i ∧ b = j ∧ c = k ∧ d = l then
        ⟨fun e => if e = m then v else (L.lattice a b c d).phases e⟩
      else
        L.lattice a b c d }

/-- Embedding of Lattice::new_uniform: every site holds the uniform phase
vector and the width field is the argument. -/
def Lattice.new_uniform (width : ℕ) : Lattice :=
  ⟨fun _ _ _ _ => PhaseVector.new_uniform, width⟩

/-- Reduction of bind on a success value in the error monad. -/
@[simp] theorem bind_ok {α β : Type} (a : α) (f : α → Except Err β) :
    (Except.ok a : Except Err α) >>= f = f a := rfl

/-- Reduction of bind on an error value in the error monad. -/
@[simp] theorem bind_error {α β : Type} (e : Err) (f : α → Except Err β) :
    (Except.error e : Except Err α) >>= f = Except.error e := rfl

/-- Reduction of pure in the error monad. -/
@[simp] theorem pure_eq_ok {α : Type} (a : α) :
    (pure a : Except Err α) = Except.ok a := rfl

/-- A for-loop over the half-open range 0..n in the error monad: the body
receives the loop index and the accumulated state. -/
def forE {σ : Type} (n : ℕ) (f : ℕ → σ → Except Err σ) (init : σ) : Except Err σ :=
  (List.range n).foldlM (fun s i => f i s) init

/-- A for-loop over the half-open range a..b in the error monad. -/
def forSpan {σ : Type} (a b : ℕ) (f : ℕ → σ → Except Err σ) (init : σ) : Except Err σ :=
  (List.range' a (b - a)).foldlM (fun s i => f i s) init

/-- Embedding of Lattice::average_action: sum 1 - cos(phase1 + phase2 -
phase3 - phase4) over all sites and the six ordered axis pairs (m, n) with
m < n, then divide by 6 * width^4. -/
noncomputable def Lattice.average_action (L : Lattice) : Except Err ℝ := do
  let num_plaquettes : ℝ := ((6 * L.width ^ 4 : ℕ) : ℝ)
  let sum ← forE L.width (fun i sum =>
    forE L.width (fun j sum =>
      forE L.width (fun k sum =>
        forE L.width (fun l sum =>
          forE 3 (fun m sum =>
            forSpan (m + 1) 4 (fun n sum => do
              let phase1 ← L.get i j k l m
              let phase2 ← L.get ((i + UNIT_VECTORS m 0) % L.width)
                ((j + UNIT_VECTORS m 1) % L.width)
                ((k + UNIT_VECTORS m 2) % L.width)
                ((l + UNIT_VECTORS m 3) % L.width) n
              let phase3 ← L.get ((i + UNIT_VECTORS n 0) % L.width)
                ((j + UNIT_VECTORS n 1) % L.width)
                ((k + UNIT_VECTORS n 2) % L.width)
                ((l + UNIT_VECTORS n 3) % L.width) m
              let phase4 ← L.get i j k l n
              .ok (sum + (1 - Real.cos (phase1 + phase2 - phase3 - phase4)))) sum) sum) sum) sum) sum) (0:ℝ)
  .ok (sum / num_plaquettes)

/-- A lattice site written as the quadruple of its coordinates. -/
abbrev Site := ℕ × ℕ × ℕ × ℕ

/-- Link angle θ_a(s), read directly at a site whose coordinates are already
in range; used by the spec-level formulas. -/
def phaseAt (L : Lattice) (s : Site) (a : ℕ) : ℝ :=
  (L.lattice s.1 s.2.1 s.2.2.1 s.2.2.2).phases a

/-- Site n + â: the neighbor one step forward along axis a, wrapped modulo
the width on the displaced axis. -/
def fwdShift (W : ℕ) (s : Site) (a : ℕ) : Site :=
  (if a = 0 then (s.1 + 1) % W else s.1,
   if a = 1 then (s.2.1 + 1) % W else s.2.1,
   if a = 2 then (s.2.2.1 + 1) % W else s.2.2.1,
   if a = 3 then (s.2.2.2 + 1) % W else s.2.2.2)

/-- Site n − â: the backward neighbor, its index on the displaced axis
computed as (index + W − 1) modulo W. -/
def bwdShift (W : ℕ) (s : Site) (a : ℕ) : Site :=
  (if a = 0 then (s.1 + W - 1) % W else s.1,
   if a = 1 then (s.2.1 + W - 1) % W else s.2.1,
   if a = 2 then (s.2.2.1 + W - 1) % W else s.2.2.1,
   if a = 3 then (s.2.2.2 + W - 1) % W else s.2.2.2)

/-- Plaquette phase φ = θ_μ(n) + θ_ν(n+μ̂) − θ_μ(n+ν̂) − θ_ν(n), exactly as
the spec states it. -/
def specPlaquettePhase (L : Lattice) (s : Site) (mu nu : ℕ) : ℝ :=
  phaseAt L s mu + phaseAt L (fwdShift L.width s mu) nu
    - phaseAt L (fwdShift L.width s nu) mu - phaseAt L s nu

/-- The six unordered axis pairs of 4 dimensions, listed as ordered pairs
with the first axis strictly below the second. -/
def axisPairs : Finset (ℕ × ℕ) :=
  ((Finset.range 4) ×ˢ (Finset.range 4)).filter (fun p => p.1 < p.2)

/-- Reading at in-range coordinates succeeds with the stored phase. -/
theorem Lattice.get_ok (L : Lattice) {i j k l : ℕ} (m : ℕ) (hi : i < L.width)
    (hj : j < L.width) (hk : k < L.width) (hl : l < L.width) :
    L.get i j k l m = .ok ((L.lattice i j k l).phases m) := by
  unfold Lattice.get
  rw [if_pos ⟨hi, hj, hk, hl⟩]

/-- Characterization of forE when the body always succeeds and adds a
per-index contribution to the accumulator. -/
theorem forE_ok_sum (n : ℕ) (f : ℕ → ℝ → Except Err ℝ) (F : ℕ → ℝ)
    (h : ∀ i, i < n → ∀ s, f i s = .ok (s + F i)) :
    ∀ init : ℝ, forE n f init = .ok (init + ∑ i ∈ Finset.range n, F i) := by
  induction n with
  | zero =>
    intro init
    simp [forE]
  | succ n ih =>
    intro init
    have ih2 := ih (fun i hi s => h i (Nat.lt_succ_of_lt hi) s) init
    unfold forE at ih2 ⊢
    rw [List.range_succ, List.foldlM_append, ih2]
    simp [h n (Nat.lt_succ_self n), Finset.sum_range_succ, add_assoc]

/-- Characterization of the double loop over the axis pairs m < n: when the
body always succeeds and adds a contribution, the loop adds the sum over the
six axis pairs. -/
theorem pair_loops_ok (f : ℕ → ℕ → ℝ → Except Err ℝ) (T : ℕ → ℕ → ℝ)
    (h : ∀ m n, m < 3 → m < n → n < 4 → ∀ s, f m n s = .ok (s + T m n)) :
    ∀ init : ℝ,
      forE 3 (fun m sum => forSpan (m + 1) 4 (fun n sum => f m n sum) sum) init =
        .ok (init + ∑ p ∈ axisPairs, T p.1 p.2) := by
  intro init
  have e1 : List.range 3 = [0, 1, 2] := by decide
  have e2 : List.range' 1 3 = [1, 2, 3] := by decide
  have e3 : List.range' 2 2 = [2, 3] := by decide
  have e4 : List.range' 3 1 = [3] := by decide
  have ep : axisPairs = {(0,1), (0,2), (0,3), (1,2), (1,3), (2,3)} := by decide
  have esum : ∑ p ∈ axisPairs, T p.1 p.2 =
      T 0 1 + T 0 2 + T 0 3 + T 1 2 + T 1 3 + T 2 3 := by
    rw [ep, Finset.sum_insert (by decide), Finset.sum_insert (by decide),
      Finset.sum_insert (by decide), Finset.sum_insert (by decide),
      Finset.sum_insert (by decide), Finset.sum_singleton]
    ring
  unfold forE forSpan
  rw [e1]
  simp only [List.foldlM_cons, List.foldlM_nil]
  norm_num [e2, e3, e4]
  simp only [List.foldlM_cons, List.foldlM_nil,
    h 0 1 (by norm_num) (by norm_num) (by norm_num),
    h 0 2 (by norm_num) (by norm_num) (by norm_num),
    h 0 3 (by norm_num) (by norm_num) (by norm_num),
    h 1 2 (by norm_num) (by norm_num) (by norm_num),
    h 1 3 (by norm_num) (by norm_num) (by norm_num),
    h 2 3 (by norm_num) (by norm_num) (by norm_num),
    bind_ok, pure_eq_ok]
  rw [esum]
  congr 1
  ring

/-- Characterization of the four nested site loops. -/
theorem forE4_ok_sum (W : ℕ) (f : ℕ → ℕ → ℕ → ℕ → ℝ → Except Err ℝ)
    (F : ℕ → ℕ → ℕ → ℕ → ℝ)
    (h : ∀ i j k l, i < W → j < W → k < W → l < W → ∀ s, f i j k l s = .ok (s + F i j k l)) :
    ∀ init : ℝ,
      forE W (fun i s => forE W (fun j s => forE W (fun k s =>
          forE W (fun l s => f i j k l s) s) s) s) init =
        .ok (init + ∑ i ∈ Finset.range W, ∑ j ∈ Finset.range W,
          ∑ k ∈ Finset.range W, ∑ l ∈ Finset.range W, F i j k l) := by
  intro init
  refine forE_ok_sum W _ _ (fun i hi s => ?_) init
  refine forE_ok_sum W _ _ (fun j hj s => ?_) s
  refine forE_ok_sum W _ _ (fun k hk s => ?_) s
  exact forE_ok_sum W _ _ (fun l hl s => h i j k l hi hj hk hl s) s

/-- Embedding of acceptance_probability:
exp((cos((PI/2)*(1-x)) - x) * prefactor) / exp(ACCEPTANCE_CONSTANT * prefactor). -/
noncomputable def acceptance_probability (x prefactor : ℝ) : ℝ :=
  Real.exp ((Real.cos ((Real.pi / 2) * (1 - x)) - x) * prefactor) /
    Real.exp (ACCEPTANCE_CONSTANT * prefactor)

/-- Acceptance probability exactly as the spec sentence writes it:
exp((cos((1−x)·π/2) − C)·prefactor − x), with the subtraction of x outside
the multiplication by the prefactor. -/
noncomputable def spec_acceptance_probability (x prefactor : ℝ) : ℝ :=
  Real.exp ((Real.cos ((1 - x) * (Real.pi / 2)) - ACCEPTANCE_CONSTANT) * prefactor - x)

/-- C1 counterexample: at x = 1 and prefactor = 2 the acceptance probability
computed by the code differs from the formula the claim states, because the
code multiplies the subtracted x by the prefactor while the claim does not. -/
theorem C1_counterexample :
    acceptance_probability 1 2 ≠ spec_acceptance_probability 1 2 := by
  unfold acceptance_probability spec_acceptance_probability
  intro h
  rw [div_eq_iff (Real.exp_ne_zero _), ← Real.exp_add] at h
  have h2 := Real.exp_eq_exp.mp h
  have e1 : Real.cos ((Real.pi / 2) * (1 - 1)) = 1 := by
    norm_num
  have e2 : Real.cos (((1:ℝ) - 1) * (Real.pi / 2)) = 1 := by
    norm_num
  rw [e1, e2] at h2
  linarith

/-- C1 (amended): for every x and prefactor, the acceptance probability equals
exp((cos((1−x)·π/2) − C − x)·prefactor), the subtracted x being scaled by the
prefactor like the other two terms. -/
theorem C1_amended (x prefactor : ℝ) :
    acceptance_probability x prefactor =
      Real.exp ((Real.cos ((1 - x) * (Real.pi / 2)) - ACCEPTANCE_CONSTANT - x) * prefactor) := by
  unfold acceptance_probability
  rw [mul_comm ((1:ℝ) - x) (Real.pi / 2), ← Real.exp_sub]
  congr 1
  ring

/-- Characterization of average_action: it succeeds and returns the sum over
all sites and the six axis pairs of 1 − cos(φ), with φ the spec-level
plaquette phase, divided by 6·W⁴.  No width hypothesis is needed: at width 0
both sides are the empty sum divided by zero. -/
theorem average_action_eq (L : Lattice) :
    L.average_action = .ok ((∑ i ∈ Finset.range L.width, ∑ j ∈ Finset.range L.width,
      ∑ k ∈ Finset.range L.width, ∑ l ∈ Finset.range L.width,
      ∑ p ∈ axisPairs, (1 - Real.cos (specPlaquettePhase L (i, j, k, l) p.1 p.2))) /
        ((6 * L.width ^ 4 : ℕ) : ℝ)) := by
  have hbody : ∀ i j k l : ℕ, i < L.width → j < L.width → k < L.width → l < L.width →
      ∀ s : ℝ,
        forE 3 (fun m sum => forSpan (m + 1) 4 (fun n sum => do
          let phase1 ← L.get i j k l m
          let phase2 ← L.get ((i + UNIT_VECTORS m 0) % L.width)
            ((j + UNIT_VECTORS m 1) % L.width) ((k + UNIT_VECTORS m 2) % L.width)
            ((l + UNIT_VECTORS m 3) % L.width) n
          let phase3 ← L.get ((i + UNIT_VECTORS n 0) % L.width)
            ((j + UNIT_VECTORS n 1) % L.width) ((k + UNIT_VECTORS n 2) % L.width)
            ((l + UNIT_VECTORS n 3) % L.width) m
          let phase4 ← L.get i j k l n
          .ok (sum + (1 - Real.cos (phase1 + phase2 - phase3 - phase4)))) sum) s
        = .ok (s + ∑ p ∈ axisPairs,
            (1 - Real.cos (specPlaquettePhase L (i, j, k, l) p.1 p.2))) := by
    intro i j k l hi hj hk hl s
    have hW : 0 < L.width := Nat.lt_of_le_of_lt (Nat.zero_le i) hi
    have hmod : ∀ x d : ℕ, (x + d) % L.width < L.width := fun x d => Nat.mod_lt _ hW
    refine pair_loops_ok _
      (fun m n => 1 - Real.cos (specPlaquettePhase L (i, j, k, l) m n)) ?_ s
    intro m n hm hmn hn s2
    interval_cases m <;> interval_cases n <;>
      simp [Lattice.get, UNIT_VECTORS, hmod, hi, hj, hk, hl,
        Nat.mod_eq_of_lt hi, Nat.mod_eq_of_lt hj, Nat.mod_eq_of_lt hk, Nat.mod_eq_of_lt hl,
        specPlaquettePhase, phaseAt, fwdShift]
  simp only [Lattice.average_action]
  rw [forE4_ok_sum L.width _ _ hbody 0]
  simp

/-- Conjunction claimed by C2: the value of the observable, and the count of
summed plaquette terms: six axis pairs, 6·W⁴ site/pair combinations. -/
def AverageActionClaim (L : Lattice) : Prop :=
  L.average_action = .ok ((1 / (6 * (L.width : ℝ) ^ 4)) *
    ∑ i ∈ Finset.range L.width, ∑ j ∈ Finset.range L.width,
      ∑ k ∈ Finset.range L.width, ∑ l ∈ Finset.range L.width,
      ∑ p ∈ axisPairs, (1 - Real.cos (specPlaquettePhase L (i, j, k, l) p.1 p.2))) ∧
  axisPairs.card = 6 ∧
  ((Finset.range L.width ×ˢ Finset.range L.width ×ˢ Finset.range L.width ×ˢ
    Finset.range L.width) ×ˢ axisPairs).card = 6 * L.width ^ 4

/-- C2: for every lattice of width W > 0, average_action returns 1/(6·W⁴)
times the sum over every site and every axis pair μ<ν of 1 − cos(φ) with the
claimed plaquette phase, and exactly 6·W⁴ plaquette terms are summed. -/
theorem C2_average_action (L : Lattice) (hW : 0 < L.width) :
    AverageActionClaim L := by
  refine ⟨?_, by decide, ?_⟩
  · rw [average_action_eq L, one_div_mul_eq_div]
    congr 1
    push_cast
    ring
  · have hp : axisPairs.card = 6 := by decide
    simp [Finset.card_product, hp]
    ring

/-- C2 witness: the theorem applied to the uniform lattice of width 1. -/
theorem C2_average_action_witness :
    0 < (Lattice.new_uniform 1).width ∧ AverageActionClaim (Lattice.new_uniform 1) :=
  ⟨Nat.one_pos, C2_average_action (Lattice.new_uniform 1) Nat.one_pos⟩

/-- Embedding of Complex::from_polar(r, theta): the complex number with
modulus r and argument theta, r·(cos θ + i·sin θ). -/
noncomputable def fromPolar (r theta : ℝ) : ℂ :=
  r * (Real.cos theta + Real.sin theta * Complex.I)

/-- A unit-modulus polar value is the exponential of i times the angle. -/
theorem fromPolar_one (theta : ℝ) : fromPolar 1 theta = Complex.exp (theta * Complex.I) := by
  unfold fromPolar
  rw [Complex.exp_mul_I, Complex.ofReal_cos, Complex.ofReal_sin]
  norm_num

/-- Embedding of Lattice::plaquettes_without_link: the sum, over the axes n
distinct from m, of the two unit phasors closing the two plaquettes that
contain the link (i,j,k,l,m) in the (m,n) plane. -/
noncomputable def Lattice.plaquettes_without_link (L : Lattice) (i j k l m : ℕ) :
    Except Err ℂ :=
  forE 4 (fun n lambda_sum =>
    if m ≠ n then do
      let phase1 ← L.get ((i + UNIT_VECTORS m 0) % L.width)
        ((j + UNIT_VECTORS m 1) % L.width) ((k + UNIT_VECTORS m 2) % L.width)
        ((l + UNIT_VECTORS m 3) % L.width) n
      let phase2 ← L.get ((i + UNIT_VECTORS n 0) % L.width)
        ((j + UNIT_VECTORS n 1) % L.width) ((k + UNIT_VECTORS n 2) % L.width)
        ((l + UNIT_VECTORS n 3) % L.width) m
      let phase3 ← L.get i j k l n
      let lambda1 := fromPolar 1 (phase1 - phase2 - phase3)
      let sum1 := lambda_sum + lambda1
      let phase4 ← L.get ((i + L.width - UNIT_VECTORS n 0) % L.width)
        ((j + L.width - UNIT_VECTORS n 1) % L.width)
        ((k + L.width - UNIT_VECTORS n 2) % L.width)
        ((l + L.width - UNIT_VECTORS n 3) % L.width) m
      let phase5 ← L.get ((i + L.width - UNIT_VECTORS n 0 + UNIT_VECTORS m 0) % L.width)
        ((j + L.width - UNIT_VECTORS n 1 + UNIT_VECTORS m 1) % L.width)
        ((k + L.width - UNIT_VECTORS n 2 + UNIT_VECTORS m 2) % L.width)
        ((l + L.width - UNIT_VECTORS n 3 + UNIT_VECTORS m 3) % L.width) n
      let phase6 ← L.get ((i + L.width - UNIT_VECTORS n 0) % L.width)
        ((j + L.width - UNIT_VECTORS n 1) % L.width)
        ((k + L.width - UNIT_VECTORS n 2) % L.width)
        ((l + L.width - UNIT_VECTORS n 3) % L.width) n
      let lambda2 := fromPolar 1 (-phase4 - phase5 + phase6)
      .ok (sum1 + lambda2)
    else
      .ok lambda_sum) (fromPolar 0 0)

/-- Forward staple angle θ_n(s+m̂) − θ_m(s+n̂) − θ_n(s), as the claim states. -/
def fwdStapleAngle (L : Lattice) (s : Site) (m n : ℕ) : ℝ :=
  phaseAt L (fwdShift L.width s m) n - phaseAt L (fwdShift L.width s n) m - phaseAt L s n

/-- Backward staple angle −θ_m(s−n̂) − θ_n(s−n̂+m̂) + θ_n(s−n̂), as the claim
states, the backward offset wrapped as (index + W − 1) mod W. -/
def bwdStapleAngle (L : Lattice) (s : Site) (m n : ℕ) : ℝ :=
  -phaseAt L (bwdShift L.width s n) m
    - phaseAt L (fwdShift L.width (bwdShift L.width s n) m) n
    + phaseAt L (bwdShift L.width s n) n

/-- Staple sum as the claim states it: over the three axes n ≠ m, the two
unit-magnitude phasors of the forward and backward staple angles. -/
noncomputable def specStaple (L : Lattice) (s : Site) (m : ℕ) : ℂ :=
  ∑ n ∈ (Finset.range 4).filter (fun n => n ≠ m),
    (Complex.exp ((fwdStapleAngle L s m n : ℝ) * Complex.I) +
      Complex.exp ((bwdStapleAngle L s m n : ℝ) * Complex.I))

set_option maxHeartbeats 3200000 in
/-- Characterization of plaquettes_without_link at a valid site and axis. -/
theorem plaquettes_without_link_eq (L : Lattice) {i j k l m : ℕ}
    (hi : i < L.width) (hj : j < L.width) (hk : k < L.width) (hl : l < L.width)
    (hm : m < 4) :
    L.plaquettes_without_link i j k l m = .ok (specStaple L (i, j, k, l) m) := by
  have hW : 0 < L.width := Nat.lt_of_le_of_lt (Nat.zero_le i) hi
  have hmodAll : ∀ x : ℕ, x % L.width < L.width := fun x => Nat.mod_lt _ hW
  have hshift : ∀ x : ℕ, (x + L.width + 1) % L.width = (x + 1) % L.width := fun x => by
    rw [Nat.add_right_comm, Nat.add_mod_right]
  have hrange : List.range 4 = [0, 1, 2, 3] := by decide
  have hzero : fromPolar 0 0 = 0 := by
    simp [fromPolar]
  interval_cases m
  all_goals simp only [Lattice.plaquettes_without_link, forE, hrange,
    List.foldlM_cons, List.foldlM_nil, hzero]
  all_goals norm_num [UNIT_VECTORS]
  all_goals simp only [Nat.add_zero, Nat.sub_zero, Nat.add_mod_right, hshift,
    Nat.mod_eq_of_lt hi, Nat.mod_eq_of_lt hj, Nat.mod_eq_of_lt hk, Nat.mod_eq_of_lt hl]
  all_goals simp only [Lattice.get, hi, hj, hk, hl, hmodAll, and_self, and_true, true_and,
    if_true, bind_ok, pure_eq_ok]
  all_goals simp only [specStaple, fwdStapleAngle, bwdStapleAngle, phaseAt, fwdShift, bwdShift]
  all_goals norm_num [fromPolar_one, Finset.sum_insert, Finset.mem_insert,
    Finset.mem_singleton, Finset.sum_singleton,
    (by decide : (Finset.range 4).filter (fun n => n ≠ 0) = {1, 2, 3}),
    (by decide : (Finset.range 4).filter (fun n => n ≠ 1) = {0, 2, 3}),
    (by decide : (Finset.range 4).filter (fun n => n ≠ 2) = {0, 1, 3}),
    (by decide : (Finset.range 4).filter (fun n => n ≠ 3) = {0, 1, 2})]
  all_goals ring

/-- Statement of claim C3 at one link: the staple sum equals the claimed
spec-level value. -/
def StapleClaim (L : Lattice) (i j k l m : ℕ) : Prop :=
  L.plaquettes_without_link i j k l m = .ok (specStaple L (i, j, k, l) m)

/-- C3: for every lattice of width W > 0, every site with in-range
coordinates and every axis m, plaquettes_without_link returns the sum over
the three axes n ≠ m of the forward and backward staple phasors, with the
claimed angles and the claimed modular wrapping. -/
theorem C3_plaquettes_without_link (L : Lattice) (i j k l m : ℕ)
    (hi : i < L.width) (hj : j < L.width) (hk : k < L.width) (hl : l < L.width)
    (hm : m < 4) : StapleClaim L i j k l m :=
  plaquettes_without_link_eq L hi hj hk hl hm

/-- C3 witness: the theorem applied at the origin of the width-1 uniform
lattice with axis 0. -/
theorem C3_witness :
    (0 < (Lattice.new_uniform 1).width ∧ (0:ℕ) < 4) ∧
      StapleClaim (Lattice.new_uniform 1) 0 0 0 0 0 :=
  ⟨⟨Nat.one_pos, by norm_num⟩,
    C3_plaquettes_without_link (Lattice.new_uniform 1) 0 0 0 0 0
      Nat.one_pos Nat.one_pos Nat.one_pos Nat.one_pos (by norm_num)⟩

/-- The lattice obtained by adding the constant c to every stored link
angle, at every site and every axis. -/
def Lattice.shiftAll (L : Lattice) (c : ℝ) : Lattice :=
  { L with lattice := fun a b d e => ⟨fun x => (L.lattice a b d e).phases x + c⟩ }

/-- C6: for every lattice of width W > 0 and every constant c, adding c to
every link angle leaves average_action unchanged. -/
theorem C6_gauge_invariance (L : Lattice) (c : ℝ) (hW : 0 < L.width) :
    (L.shiftAll c).average_action = L.average_action := by
  rw [average_action_eq, average_action_eq]
  have hphase : ∀ (s : Site) (q1 q2 : ℕ),
      specPlaquettePhase (L.shiftAll c) s q1 q2 = specPlaquettePhase L s q1 q2 := by
    intro s q1 q2
    simp only [specPlaquettePhase, phaseAt, Lattice.shiftAll, fwdShift]
    ring
  have hw : (L.shiftAll c).width = L.width := rfl
  simp only [hphase, hw]

/-- C6 witness: the theorem applied to the width-1 uniform lattice with
shift constant 1. -/
theorem C6_witness :
    0 < (Lattice.new_uniform 1).width ∧
      ((Lattice.new_uniform 1).shiftAll 1).average_action =
        (Lattice.new_uniform 1).average_action :=
  ⟨Nat.one_pos, C6_gauge_invariance (Lattice.new_uniform 1) 1 Nat.one_pos⟩

/-- The uniform lattice has zero average action, for any width. -/
theorem average_action_new_uniform (W : ℕ) :
    (Lattice.new_uniform W).average_action = .ok 0 := by
  rw [average_action_eq]
  simp [specPlaquettePhase, phaseAt, Lattice.new_uniform, PhaseVector.new_uniform]

/-- C7: for every width W > 0, new_uniform produces the lattice whose every
link angle is 0 and whose average_action is exactly 0. -/
theorem C7_new_uniform (W : ℕ) (hW : 0 < W) :
    (∀ i j k l m : ℕ, ((Lattice.new_uniform W).lattice i j k l).phases m = 0) ∧
      (Lattice.new_uniform W).average_action = .ok 0 :=
  ⟨fun _ _ _ _ _ => rfl, average_action_new_uniform W⟩

/-- C7 witness: the theorem applied at width 1. -/
theorem C7_witness :
    0 < 1 ∧
      ((∀ i j k l m : ℕ, ((Lattice.new_uniform 1).lattice i j k l).phases m = 0) ∧
        (Lattice.new_uniform 1).average_action = .ok 0) :=
  ⟨Nat.one_pos, C7_new_uniform 1 Nat.one_pos⟩

/-- C10: for every lattice of width W > 0, whatever the stored angles, the
value returned by average_action lies in the closed interval [0, 2]. -/
theorem C10_average_action_bounds (L : Lattice) (hW : 0 < L.width) (r : ℝ)
    (hr : L.average_action = .ok r) : 0 ≤ r ∧ r ≤ 2 := by
  rw [average_action_eq] at hr
  injection hr with h
  subst h
  have hterm : ∀ (s : Site) (q1 q2 : ℕ),
      0 ≤ 1 - Real.cos (specPlaquettePhase L s q1 q2) ∧
        1 - Real.cos (specPlaquettePhase L s q1 q2) ≤ 2 := by
    intro s q1 q2
    constructor
    · linarith [Real.cos_le_one (specPlaquettePhase L s q1 q2)]
    · linarith [Real.neg_one_le_cos (specPlaquettePhase L s q1 q2)]
  have hsum : ∀ (t : Finset ℕ) (g : ℕ → ℝ) (B : ℝ), (∀ x ∈ t, g x ≤ B) →
      ∑ x ∈ t, g x ≤ (t.card : ℝ) * B := by
    intro t g B hg
    have := Finset.sum_le_card_nsmul t g B hg
    rwa [nsmul_eq_mul] at this
  have hpairs : ∀ s : Site,
      ∑ p ∈ axisPairs, (1 - Real.cos (specPlaquettePhase L s p.1 p.2)) ≤ 12 := by
    intro s
    have h6 : (axisPairs.card : ℝ) = 6 := by
      norm_num [(by decide : axisPairs.card = 6)]
    calc ∑ p ∈ axisPairs, (1 - Real.cos (specPlaquettePhase L s p.1 p.2))
        ≤ (axisPairs.card : ℝ) * 2 := by
          have := Finset.sum_le_card_nsmul axisPairs
            (fun p => 1 - Real.cos (specPlaquettePhase L s p.1 p.2)) 2
            (fun p _ => (hterm s p.1 p.2).2)
          rwa [nsmul_eq_mul] at this
      _ = 12 := by
          rw [h6]
          norm_num
  have hnonneg : 0 ≤ ∑ i ∈ Finset.range L.width, ∑ j ∈ Finset.range L.width,
      ∑ k ∈ Finset.range L.width, ∑ l ∈ Finset.range L.width,
      ∑ p ∈ axisPairs, (1 - Real.cos (specPlaquettePhase L (i, j, k, l) p.1 p.2)) := by
    refine Finset.sum_nonneg fun i _ => Finset.sum_nonneg fun j _ =>
      Finset.sum_nonneg fun k _ => Finset.sum_nonneg fun l _ =>
      Finset.sum_nonneg fun p _ => (hterm (i, j, k, l) p.1 p.2).1
  have hupper : ∑ i ∈ Finset.range L.width, ∑ j ∈ Finset.range L.width,
      ∑ k ∈ Finset.range L.width, ∑ l ∈ Finset.range L.width,
      ∑ p ∈ axisPairs, (1 - Real.cos (specPlaquettePhase L (i, j, k, l) p.1 p.2)) ≤
      (L.width : ℝ) * ((L.width : ℝ) * ((L.width : ℝ) * ((L.width : ℝ) * 12))) := by
    have h4 : ∀ i j k, ∑ l ∈ Finset.range L.width,
        ∑ p ∈ axisPairs, (1 - Real.cos (specPlaquettePhase L (i, j, k, l) p.1 p.2)) ≤
          (L.width : ℝ) * 12 := by
      intro i j k
      have := hsum (Finset.range L.width) _ 12 (fun l _ => hpairs (i, j, k, l))
      rwa [Finset.card_range] at this
    have h3 : ∀ i j, ∑ k ∈ Finset.range L.width, ∑ l ∈ Finset.range L.width,
        ∑ p ∈ axisPairs, (1 - Real.cos (specPlaquettePhase L (i, j, k, l) p.1 p.2)) ≤
          (L.width : ℝ) * ((L.width : ℝ) * 12) := by
      intro i j
      have := hsum (Finset.range L.width) _ ((L.width : ℝ) * 12) (fun k _ => h4 i j k)
      rwa [Finset.card_range] at this
    have h2 : ∀ i, ∑ j ∈ Finset.range L.width, ∑ k ∈ Finset.range L.width,
        ∑ l ∈ Finset.range L.width,
        ∑ p ∈ axisPairs, (1 - Real.cos (specPlaquettePhase L (i, j, k, l) p.1 p.2)) ≤
          (L.width : ℝ) * ((L.width : ℝ) * ((L.width : ℝ) * 12)) := by
      intro i
      have := hsum (Finset.range L.width) _ ((L.width : ℝ) * ((L.width : ℝ) * 12))
        (fun j _ => h3 i j)
      rwa [Finset.card_range] at this
    have := hsum (Finset.range L.width) _
      ((L.width : ℝ) * ((L.width : ℝ) * ((L.width : ℝ) * 12))) (fun i _ => h2 i)
    rwa [Finset.card_range] at this
  have hN : (0:ℝ) < ((6 * L.width ^ 4 : ℕ) : ℝ) := by
    have : 0 < 6 * L.width ^ 4 := by positivity
    exact_mod_cast this
  constructor
  · exact div_nonneg hnonneg (le_of_lt hN)
  · rw [div_le_iff hN]
    refine le_trans hupper (le_of_eq ?_)
    push_cast
    ring

/-- C10 witness: the theorem applied to the width-1 uniform lattice, whose
average action is 0. -/
theorem C10_witness :
    (0 < (Lattice.new_uniform 1).width ∧
      (Lattice.new_uniform 1).average_action = .ok 0) ∧ ((0:ℝ) ≤ 0 ∧ (0:ℝ) ≤ 2) :=
  ⟨⟨Nat.one_pos, average_action_new_uniform 1⟩,
    C10_average_action_bounds (Lattice.new_uniform 1) Nat.one_pos 0
      (average_action_new_uniform 1)⟩

open Classical in
/-- Embedding of the rejection loop of sample_theta.  The source loop is
unbounded; the fuel argument bounds how many iterations are unrolled, and
the characterization theorem recovers the unbounded behaviour by quantifying
over every fuel.  Each iteration draws a proposal uniform and an acceptance
uniform; an accepted iteration additionally draws the sign boolean. -/
noncomputable def sampleThetaLoop (prefactor : ℝ) : ℕ → RngState → Except Err (ℝ × RngState)
  | 0, _ => .error .fuel
  | fuel + 1, rng =>
    let u1p := rngF64 rng
    let sample_x := -1 + (1 / prefactor) * Real.log (1 + (Real.exp (2 * prefactor) - 1) * u1p.1)
    let u2p := rngF64 u1p.2
    if u2p.1 < acceptance_probability sample_x prefactor then
      let theta := (Real.pi / 2) * (1 - sample_x)
      let bp := rngBool u2p.2
      .ok ((if bp.1 then -theta else theta), bp.2)
    else
      sampleThetaLoop prefactor fuel u2p.2

/-- Embedding of sample_theta: computes prefactor = alpha * beta once, then
runs the rejection loop. -/
noncomputable def sample_theta (alpha beta : ℝ) (fuel : ℕ) (rng : RngState) :
    Except Err (ℝ × RngState) :=
  sampleThetaLoop (alpha * beta) fuel rng

/-- Proposal formula of the claim:
x = −1 + (1/prefactor)·ln(1 + (e^(2·prefactor) − 1)·u). -/
noncomputable def proposeX (p u : ℝ) : ℝ :=
  -1 + (1 / p) * Real.log (1 + (Real.exp (2 * p) - 1) * u)

/-- Proposal of iteration t (0-based): every rejected iteration consumes two
float draws, so iteration t begins at tape position pos + 2·t. -/
noncomputable def specX (p : ℝ) (s : RngState) (t : ℕ) : ℝ :=
  proposeX p (s.f64s (s.pos + 2 * t))

/-- Acceptance of iteration t: the second uniform draw of the iteration lies
below the acceptance probability of the proposal. -/
def specAccept (p : ℝ) (s : RngState) (t : ℕ) : Prop :=
  s.f64s (s.pos + 2 * t + 1) < acceptance_probability (specX p s t) p

/-- Result returned when iteration t is the first accepted one: the angle
θ = (π/2)(1−x) with its sign negated when the boolean draw is true, and the
state after the 2·t + 3 draws consumed. -/
noncomputable def specResult (p : ℝ) (s : RngState) (t : ℕ) : ℝ × RngState :=
  ((if s.bools (s.pos + 2 * t + 2) then -((Real.pi / 2) * (1 - specX p s t))
    else (Real.pi / 2) * (1 - specX p s t)), s.advance (2 * t + 3))

/-- One-step unfolding of the rejection loop with the draws spelled out. -/
theorem sampleThetaLoop_step (p : ℝ) (fuel : ℕ) (s : RngState) :
    sampleThetaLoop p (fuel + 1) s =
      if s.f64s (s.pos + 1) < acceptance_probability
          (-1 + (1 / p) * Real.log (1 + (Real.exp (2 * p) - 1) * s.f64s s.pos)) p then
        .ok ((if s.bools (s.pos + 2) then
              -((Real.pi / 2) * (1 - (-1 + (1 / p) *
                Real.log (1 + (Real.exp (2 * p) - 1) * s.f64s s.pos))))
            else (Real.pi / 2) * (1 - (-1 + (1 / p) *
              Real.log (1 + (Real.exp (2 * p) - 1) * s.f64s s.pos)))),
          { s with pos := s.pos + 3 })
      else
        sampleThetaLoop p fuel { s with pos := s.pos + 2 } := by
  show (let u1p := rngF64 s
    let sample_x := -1 + (1 / p) * Real.log (1 + (Real.exp (2 * p) - 1) * u1p.1)
    let u2p := rngF64 u1p.2
    if u2p.1 < acceptance_probability sample_x p then
      let theta := (Real.pi / 2) * (1 - sample_x)
      let bp := rngBool u2p.2
      .ok ((if bp.1 then -theta else theta), bp.2)
    else
      sampleThetaLoop p fuel u2p.2) = _
  simp only [rngF64, rngBool]

/-- Shifting the tape position by two draws moves the acceptance predicate
by one iteration. -/
theorem specAccept_shift (p : ℝ) (s : RngState) (t : ℕ) :
    specAccept p ({ s with pos := s.pos + 2 } : RngState) t ↔ specAccept p s (t + 1) := by
  unfold specAccept specX proposeX
  have e1 : s.pos + 2 + 2 * t = s.pos + 2 * (t + 1) := by
    ring
  simp only []
  rw [e1]

/-- Shifting the tape position by two draws moves the accepted result by one
iteration. -/
theorem specResult_shift (p : ℝ) (s : RngState) (t : ℕ) :
    specResult p ({ s with pos := s.pos + 2 } : RngState) t = specResult p s (t + 1) := by
  unfold specResult specX proposeX RngState.advance
  have e1 : s.pos + 2 + 2 * t = s.pos + 2 * (t + 1) := by
    ring
  have e3 : s.pos + 2 + (2 * t + 3) = s.pos + (2 * (t + 1) + 3) := by
    ring
  simp only []
  rw [e1, e3]

/-- The rejection loop succeeds exactly when some iteration within the fuel
accepts, and then returns the result of the first accepting iteration. -/
theorem sampleThetaLoop_ok_char (p : ℝ) :
    ∀ (fuel : ℕ) (s : RngState) (r : ℝ × RngState),
      sampleThetaLoop p fuel s = .ok r ↔
        ∃ t, t < fuel ∧ specAccept p s t ∧ (∀ u, u < t → ¬specAccept p s u) ∧
          r = specResult p s t := by
  intro fuel
  induction fuel with
  | zero =>
    intro s r
    simp [sampleThetaLoop]
  | succ fuel ih =>
    intro s r
    have hc : (s.f64s (s.pos + 1) < acceptance_probability
        (-1 + (1 / p) * Real.log (1 + (Real.exp (2 * p) - 1) * s.f64s s.pos)) p) ↔
        specAccept p s 0 := by
      unfold specAccept specX proposeX
      norm_num
    rw [sampleThetaLoop_step]
    by_cases h0 : specAccept p s 0
    · rw [if_pos (hc.mpr h0)]
      have hres : specResult p s 0 =
          ((if s.bools (s.pos + 2) then
              -((Real.pi / 2) * (1 - (-1 + (1 / p) *
                Real.log (1 + (Real.exp (2 * p) - 1) * s.f64s s.pos))))
            else (Real.pi / 2) * (1 - (-1 + (1 / p) *
              Real.log (1 + (Real.exp (2 * p) - 1) * s.f64s s.pos)))),
            { s with pos := s.pos + 3 }) := by
        unfold specResult specX proposeX RngState.advance
        norm_num
      constructor
      · intro h
        injection h with h
        exact ⟨0, Nat.succ_pos fuel, h0, by omega, by rw [← h, hres]⟩
      · rintro ⟨t, htf, hacc, hmin, hr⟩
        have ht0 : t = 0 := by
          by_contra hne
          exact hmin 0 (Nat.pos_of_ne_zero hne) h0
        subst ht0
        rw [hr, hres]
    · rw [if_neg (fun h => h0 (hc.mp h)), ih]
      constructor
      · rintro ⟨t, htf, hacc, hmin, hr⟩
        refine ⟨t + 1, by omega, (specAccept_shift p s t).mp hacc, ?_,
          hr.trans (specResult_shift p s t)⟩
        intro u hu
        cases u with
        | zero => exact h0
        | succ v =>
          rw [← specAccept_shift p s v]
          exact hmin v (by omega)
      · rintro ⟨t, htf, hacc, hmin, hr⟩
        have ht : t ≠ 0 := by
          rintro rfl
          exact h0 hacc
        obtain ⟨v, rfl⟩ : ∃ v, t = v + 1 := ⟨t - 1, by omega⟩
        refine ⟨v, by omega, (specAccept_shift p s v).mpr hacc, ?_,
          hr.trans (specResult_shift p s v).symm⟩
        intro u hu
        rw [specAccept_shift p s u]
        exact hmin (u + 1) (by omega)

/-- The rejection loop exhausts its fuel exactly when no iteration within
the fuel accepts. -/
theorem sampleThetaLoop_fuel_char (p : ℝ) :
    ∀ (fuel : ℕ) (s : RngState),
      sampleThetaLoop p fuel s = .error .fuel ↔ ∀ t, t < fuel → ¬specAccept p s t := by
  intro fuel
  induction fuel with
  | zero =>
    intro s
    simp [sampleThetaLoop]
  | succ fuel ih =>
    intro s
    have hc : (s.f64s (s.pos + 1) < acceptance_probability
        (-1 + (1 / p) * Real.log (1 + (Real.exp (2 * p) - 1) * s.f64s s.pos)) p) ↔
        specAccept p s 0 := by
      unfold specAccept specX proposeX
      norm_num
    rw [sampleThetaLoop_step]
    by_cases h0 : specAccept p s 0
    · rw [if_pos (hc.mpr h0)]
      constructor
      · intro h
        exact absurd h (by simp)
      · intro h
        exact absurd h0 (h 0 (Nat.succ_pos fuel))
    · rw [if_neg (fun h => h0 (hc.mp h)), ih]
      constructor
      · intro h t ht
        cases t with
        | zero => exact h0
        | succ v =>
          rw [← specAccept_shift p s v]
          exact h v (by omega)
      · intro h t ht
        rw [specAccept_shift p s t]
        exact h (t + 1) (by omega)

/-- The rejection loop never raises the out-of-bounds error: it performs no
array access. -/
theorem sampleThetaLoop_ne_oob (p : ℝ) :
    ∀ (fuel : ℕ) (s : RngState), sampleThetaLoop p fuel s ≠ .error .oob := by
  intro fuel
  induction fuel with
  | zero =>
    intro s
    simp [sampleThetaLoop]
  | succ fuel ih =>
    intro s
    rw [sampleThetaLoop_step]
    split
    · simp
    · exact ih _

/-- The random tape with the boolean at one position negated. -/
def flipBoolAt (s : RngState) (n : ℕ) : RngState :=
  { s with bools := fun x => if x = n then !(s.bools x) else s.bools x }

/-- Conjunction claimed by C5: sample_theta runs exactly the claimed
rejection loop (first-accepting-iteration semantics with the claimed
proposal, acceptance test and sign randomization), fails only by running
past every fuel bound when no iteration accepts, and negating the single
boolean draw of the accepting iteration negates the returned angle. -/
def SampleThetaClaim (alpha beta : ℝ) : Prop :=
  ∀ (fuel : ℕ) (s : RngState),
    (∀ r : ℝ × RngState,
      sample_theta alpha beta fuel s = .ok r ↔
        ∃ t, t < fuel ∧ specAccept (alpha * beta) s t ∧
          (∀ u, u < t → ¬specAccept (alpha * beta) s u) ∧
          r = specResult (alpha * beta) s t) ∧
    (sample_theta alpha beta fuel s = .error .fuel ↔
      ∀ t, t < fuel → ¬specAccept (alpha * beta) s t) ∧
    (∀ t : ℕ,
      (specResult (alpha * beta) (flipBoolAt s (s.pos + 2 * t + 2)) t).1 =
        -(specResult (alpha * beta) s t).1 ∧
      (specAccept (alpha * beta) (flipBoolAt s (s.pos + 2 * t + 2)) t ↔
        specAccept (alpha * beta) s t))

/-- C5: sample_theta with prefactor alpha·beta implements exactly the
specified rejection loop, with the claimed proposal and acceptance formulas,
the θ = (π/2)(1−x) map, the independent fair sign flip, and unbounded
retrying. -/
theorem C5_sample_theta (alpha beta : ℝ) : SampleThetaClaim alpha beta := by
  intro fuel s
  refine ⟨fun r => sampleThetaLoop_ok_char (alpha * beta) fuel s r,
    sampleThetaLoop_fuel_char (alpha * beta) fuel s, fun t => ⟨?_, ?_⟩⟩
  · unfold specResult specX proposeX flipBoolAt
    simp only []
    cases hb : s.bools (s.pos + 2 * t + 2) <;> simp [hb]
  · unfold specAccept specX proposeX flipBoolAt
    simp only []

/-- Statement of claim C9 under the embedding's total real semantics, where
x / 0 = 0: with prefactor 0 the sampler runs the same unguarded code path,
the proposal formula containing the division 1/prefactor evaluates to the
constant −1, the acceptance probability evaluates to 1, and the very first
iteration accepts and returns ±π; no uniform-sampling fallback branch
exists anywhere in the function. -/
def DegenerateSamplerClaim : Prop :=
  (∀ u : ℝ, proposeX 0 u = -1) ∧
  acceptance_probability (-1) 0 = 1 ∧
  ∀ (beta : ℝ) (fuel : ℕ) (s : RngState), s.f64s (s.pos + 1) < 1 →
    sample_theta 0 beta (fuel + 1) s =
      .ok ((if s.bools (s.pos + 2) then -Real.pi else Real.pi), { s with pos := s.pos + 3 })

/-- C9: sample_theta has no special case for a degenerate prefactor; at
alpha = 0 the unguarded proposal and acceptance formulas are still executed
(with real-number semantics for the division by zero) and no uniform
fallback exists, the degenerate path deterministically returning ±π. -/
theorem C9_degenerate_sampler : DegenerateSamplerClaim := by
  have hprop : ∀ u : ℝ, proposeX 0 u = -1 := by
    intro u
    unfold proposeX
    norm_num
  have hacc : acceptance_probability (-1) 0 = 1 := by
    unfold acceptance_probability
    norm_num
  refine ⟨hprop, hacc, ?_⟩
  intro beta fuel s hs
  unfold sample_theta
  rw [zero_mul, sampleThetaLoop_step]
  have hx : -1 + (1 / (0:ℝ)) * Real.log (1 + (Real.exp (2 * 0) - 1) * s.f64s s.pos) = -1 :=
    hprop (s.f64s s.pos)
  rw [hx, hacc, if_pos hs]
  have hpi : (Real.pi / 2) * (1 - (-1:ℝ)) = Real.pi := by
    ring
  rw [hpi]

/-- The all-zero random tape, used as a concrete witness input. -/
def rngZero : RngState :=
  ⟨fun _ => 0, fun _ => false, 0⟩

/-- C9 witness: the degenerate path taken on the all-zero tape. -/
theorem C9_witness :
    rngZero.f64s (rngZero.pos + 1) < 1 ∧
      sample_theta 0 1 1 rngZero =
        .ok ((if rngZero.bools (rngZero.pos + 2) then -Real.pi else Real.pi),
          { rngZero with pos := rngZero.pos + 3 }) :=
  ⟨by norm_num [rngZero], C9_degenerate_sampler.2.2 1 0 rngZero (by norm_num [rngZero])⟩

/-- Embedding of Lattice::heatbath_sweep: five nested ascending loops over
i, j, k, l and the axis m; each body recomputes the staple of the current
lattice, samples a new angle, and stores new_theta + theta_0 in place. -/
noncomputable def Lattice.heatbath_sweep (L : Lattice) (beta : ℝ) (fuel : ℕ)
    (rng : RngState) : Except Err (Lattice × RngState) :=
  forE L.width (fun i st =>
    forE L.width (fun j st =>
      forE L.width (fun k st =>
        forE L.width (fun l st =>
          forE 4 (fun m st => do
            let other_plaquettes ← st.1.plaquettes_without_link i j k l m
            let alpha := Complex.abs other_plaquettes
            let theta_0 := -other_plaquettes.arg
            let samp ← sample_theta alpha beta fuel st.2
            .ok (st.1.set i j k l m (samp.1 + theta_0), samp.2)) st) st) st) st) (L, rng)

/-- One link of the sweep, written as the claim orders it: (i, j, k, l, axis). -/
abbrev Link := ℕ × ℕ × ℕ × ℕ × ℕ

/-- All links in nested ascending order i, j, k, l, axis. -/
def linkOrder (W : ℕ) : List Link :=
  (List.range W).flatMap fun i =>
    (List.range W).flatMap fun j =>
      (List.range W).flatMap fun k =>
        (List.range W).flatMap fun l =>
          (List.range 4).map fun m => (i, j, k, l, m)

/-- Single-link heatbath update as the claim states it: recompute the staple
S from the current (partially updated) lattice immediately before the
update, sample θ = sample_theta(|S|, beta, rng), and store θ + θ₀ with
θ₀ = −arg S, threading the random state. -/
noncomputable def specSweepStep (beta : ℝ) (fuel : ℕ) (st : Lattice × RngState)
    (lk : Link) : Except Err (Lattice × RngState) := do
  let S ← st.1.plaquettes_without_link lk.1 lk.2.1 lk.2.2.1 lk.2.2.2.1 lk.2.2.2.2
  let theta ← sample_theta (Complex.abs S) beta fuel st.2
  .ok (st.1.set lk.1 lk.2.1 lk.2.2.1 lk.2.2.2.1 lk.2.2.2.2 (theta.1 + -Complex.arg S),
    theta.2)

/-- A monadic fold over a concatenation of blocks equals the nested fold. -/
theorem foldlM_flatMap_eq {α β σ : Type} (l : List α) (g : α → List β)
    (F : σ → β → Except Err σ) :
    ∀ init : σ, (l.flatMap g).foldlM F init =
      l.foldlM (fun st a => (g a).foldlM F st) init := by
  induction l with
  | nil =>
    intro init
    rfl
  | cons a l ih =>
    intro init
    rw [List.flatMap_cons, List.foldlM_append, List.foldlM_cons]
    exact bind_congr fun s => ih s

/-- A monadic fold over a mapped list folds the composed body. -/
theorem foldlM_map_eq {α β σ : Type} (l : List α) (h : α → β)
    (F : σ → β → Except Err σ) :
    ∀ init : σ, (l.map h).foldlM F init = l.foldlM (fun st a => F st (h a)) init := by
  induction l with
  | nil =>
    intro init
    rfl
  | cons a l ih =>
    intro init
    rw [List.map_cons, List.foldlM_cons, List.foldlM_cons]
    exact bind_congr fun s => ih s

/-- The sweep is the left-to-right fold of the single-link update over the
links listed in nested ascending order. -/
theorem heatbath_sweep_eq_fold (L : Lattice) (beta : ℝ) (fuel : ℕ) (rng : RngState) :
    L.heatbath_sweep beta fuel rng =
      (linkOrder L.width).foldlM (specSweepStep beta fuel) (L, rng) := by
  simp only [Lattice.heatbath_sweep, forE, linkOrder, foldlM_flatMap_eq, foldlM_map_eq]
  rfl

/-- Membership in linkOrder is exactly the in-range condition on the site
coordinates and the axis. -/
theorem linkOrder_mem (W : ℕ) (lk : Link) :
    lk ∈ linkOrder W ↔
      lk.1 < W ∧ lk.2.1 < W ∧ lk.2.2.1 < W ∧ lk.2.2.2.1 < W ∧ lk.2.2.2.2 < 4 := by
  obtain ⟨i, j, k, l, m⟩ := lk
  simp only [linkOrder, List.mem_flatMap, List.mem_map, List.mem_range, Prod.mk.injEq]
  constructor
  · rintro ⟨i2, hi, j2, hj, k2, hk, l2, hl, m2, hm, rfl, rfl, rfl, rfl, rfl⟩
    exact ⟨hi, hj, hk, hl, hm⟩
  · rintro ⟨hi, hj, hk, hl, hm⟩
    exact ⟨i, hi, j, hj, k, hk, l, hl, m, hm, rfl, rfl, rfl, rfl, rfl⟩

/-- Length of a flatMap whose blocks all have the same length. -/
theorem length_flatMap_const {α β : Type} (l : List α) (g : α → List β) (c : ℕ)
    (h : ∀ a ∈ l, (g a).length = c) : (l.flatMap g).length = l.length * c := by
  induction l with
  | nil =>
    simp
  | cons a l ih =>
    rw [List.flatMap_cons, List.length_append, h a (List.mem_cons_self a l),
      ih (fun b hb => h b (List.mem_cons_of_mem a hb)), List.length_cons]
    ring

/-- linkOrder lists 4·W⁴ links. -/
theorem linkOrder_length (W : ℕ) : (linkOrder W).length = 4 * W ^ 4 := by
  unfold linkOrder
  rw [length_flatMap_const _ _ (W * (W * (W * 4))) (fun i _ => ?_), List.length_range]
  · ring
  · rw [length_flatMap_const _ _ (W * (W * 4)) (fun j _ => ?_), List.length_range]
    rw [length_flatMap_const _ _ (W * 4) (fun k _ => ?_), List.length_range]
    rw [length_flatMap_const _ _ 4 (fun l _ => ?_), List.length_range]
    rw [List.length_map, List.length_range]

/-- The strict nested ascending order on links: earlier site index first, the
axis last. -/
def linkLt (a b : Link) : Prop :=
  a.1 < b.1 ∨ (a.1 = b.1 ∧ (a.2.1 < b.2.1 ∨ (a.2.1 = b.2.1 ∧
    (a.2.2.1 < b.2.2.1 ∨ (a.2.2.1 = b.2.2.1 ∧
      (a.2.2.2.1 < b.2.2.2.1 ∨ (a.2.2.2.1 = b.2.2.2.1 ∧ a.2.2.2.2 < b.2.2.2.2)))))))

/-- Pairwise property of a flatMap, from pairwise blocks and pairwise-related
distinct blocks. -/
theorem pairwise_flatMap {α β : Type} {R : β → β → Prop} (l : List α) (g : α → List β)
    (h1 : ∀ a ∈ l, (g a).Pairwise R)
    (h2 : l.Pairwise fun a b => ∀ x ∈ g a, ∀ y ∈ g b, R x y) :
    (l.flatMap g).Pairwise R := by
  induction l with
  | nil =>
    simp
  | cons a l ih =>
    rw [List.pairwise_cons] at h2
    rw [List.flatMap_cons, List.pairwise_append]
    refine ⟨h1 a (List.mem_cons_self a l),
      ih (fun b hb => h1 b (List.mem_cons_of_mem a hb)) h2.2, ?_⟩
    intro x hx y hy
    rw [List.mem_flatMap] at hy
    obtain ⟨b, hb, hyb⟩ := hy
    exact h2.1 b hb x hx y hyb

/-- linkOrder is strictly ascending in the nested order i, j, k, l, axis. -/
theorem linkOrder_pairwise (W : ℕ) : (linkOrder W).Pairwise linkLt := by
  unfold linkOrder
  refine pairwise_flatMap _ _ (fun i _ => ?_) (((List.pairwise_lt_range W).imp ?_))
  · refine pairwise_flatMap _ _ (fun j _ => ?_) (((List.pairwise_lt_range W).imp ?_))
    · refine pairwise_flatMap _ _ (fun k _ => ?_) (((List.pairwise_lt_range W).imp ?_))
      · refine pairwise_flatMap _ _ (fun l _ => ?_) (((List.pairwise_lt_range W).imp ?_))
        · rw [List.pairwise_map]
          refine (List.pairwise_lt_range 4).imp ?_
          intro m m2 hmm2
          exact Or.inr ⟨rfl, Or.inr ⟨rfl, Or.inr ⟨rfl, Or.inr ⟨rfl, hmm2⟩⟩⟩⟩
        · intro l1 l2 hl x hx y hy
          simp only [List.mem_map, List.mem_range] at hx hy
          obtain ⟨m1, hm1, rfl⟩ := hx
          obtain ⟨m2, hm2, rfl⟩ := hy
          exact Or.inr ⟨rfl, Or.inr ⟨rfl, Or.inr ⟨rfl, Or.inl hl⟩⟩⟩
      · intro k1 k2 hk x hx y hy
        simp only [List.mem_flatMap, List.mem_map, List.mem_range] at hx hy
        obtain ⟨l1, hl1, m1, hm1, rfl⟩ := hx
        obtain ⟨l2, hl2, m2, hm2, rfl⟩ := hy
        exact Or.inr ⟨rfl, Or.inr ⟨rfl, Or.inl hk⟩⟩
    · intro j1 j2 hj x hx y hy
      simp only [List.mem_flatMap, List.mem_map, List.mem_range] at hx hy
      obtain ⟨k1, hk1, l1, hl1, m1, hm1, rfl⟩ := hx
      obtain ⟨k2, hk2, l2, hl2, m2, hm2, rfl⟩ := hy
      exact Or.inr ⟨rfl, Or.inl hj⟩
  · intro i1 i2 hi x hx y hy
    simp only [List.mem_flatMap, List.mem_map, List.mem_range] at hx hy
    obtain ⟨j1, hj1, k1, hk1, l1, hl1, m1, hm1, rfl⟩ := hx
    obtain ⟨j2, hj2, k2, hk2, l2, hl2, m2, hm2, rfl⟩ := hy
    exact Or.inl hi

/-- linkOrder has no duplicate link. -/
theorem linkOrder_nodup (W : ℕ) : (linkOrder W).Nodup := by
  refine (linkOrder_pairwise W).imp ?_
  intro a b hab heq
  subst heq
  revert hab
  unfold linkLt
  omega

/-- Conjunction claimed by C4: the sweep is the sequential fold of the
claimed single-link update over the links in nested ascending order, the
listed links are exactly the in-range ones, there are 4·W⁴ of them with no
duplicate (every link exactly once), and the order is strictly ascending. -/
def HeatbathSweepClaim (L : Lattice) (beta : ℝ) (fuel : ℕ) (rng : RngState) : Prop :=
  L.heatbath_sweep beta fuel rng =
      (linkOrder L.width).foldlM (specSweepStep beta fuel) (L, rng) ∧
  (∀ lk : Link, lk ∈ linkOrder L.width ↔
    lk.1 < L.width ∧ lk.2.1 < L.width ∧ lk.2.2.1 < L.width ∧
      lk.2.2.2.1 < L.width ∧ lk.2.2.2.2 < 4) ∧
  (linkOrder L.width).length = 4 * L.width ^ 4 ∧
  (linkOrder L.width).Nodup ∧
  (linkOrder L.width).Pairwise linkLt

/-- C4: heatbath_sweep updates every link exactly once in nested ascending
order i, j, k, l, axis, recomputing the staple from the current state
immediately before each single-link update and storing θ + θ₀ with
θ₀ = −arg S. -/
theorem C4_heatbath_sweep (L : Lattice) (beta : ℝ) (fuel : ℕ) (rng : RngState)
    (hW : 0 < L.width) : HeatbathSweepClaim L beta fuel rng :=
  ⟨heatbath_sweep_eq_fold L beta fuel rng, linkOrder_mem L.width,
    linkOrder_length L.width, linkOrder_nodup L.width, linkOrder_pairwise L.width⟩

/-- C4 witness: the theorem applied to the width-1 uniform lattice. -/
theorem C4_witness :
    0 < (Lattice.new_uniform 1).width ∧
      HeatbathSweepClaim (Lattice.new_uniform 1) 1 0 rngZero :=
  ⟨Nat.one_pos, C4_heatbath_sweep (Lattice.new_uniform 1) 1 0 rngZero Nat.one_pos⟩

/-- Width preservation and absence of out-of-bounds panics along a monadic
fold whose every step preserves the width and never panics. -/
theorem foldlM_ne_oob {α : Type} (l : List α)
    (F : Lattice × RngState → α → Except Err (Lattice × RngState)) (W : ℕ)
    (h : ∀ a ∈ l, ∀ st : Lattice × RngState, st.1.width = W →
      F st a ≠ .error .oob ∧ ∀ st2, F st a = .ok st2 → st2.1.width = W) :
    ∀ st : Lattice × RngState, st.1.width = W →
      l.foldlM F st ≠ .error .oob ∧
        ∀ out, l.foldlM F st = .ok out → out.1.width = W := by
  induction l with
  | nil =>
    intro st hst
    refine ⟨by simp, ?_⟩
    intro out hout
    simp only [List.foldlM_nil, pure_eq_ok] at hout
    injection hout with hout
    rw [← hout]
    exact hst
  | cons a l ih =>
    intro st hst
    obtain ⟨hne, hpres⟩ := h a (List.mem_cons_self a l) st hst
    rw [List.foldlM_cons]
    cases hFa : F st a with
    | error e =>
      rw [bind_error]
      have he : e ≠ Err.oob := by
        intro heq
        exact hne (by rw [hFa, heq])
      refine ⟨fun heq => he (by injection heq), ?_⟩
      intro out hout
      exact absurd hout (by simp)
    | ok st2 =>
      rw [bind_ok]
      exact ih (fun b hb => h b (List.mem_cons_of_mem a hb)) st2 (hpres st2 hFa)

/-- Setting one link angle does not change the width. -/
theorem Lattice.set_width (L : Lattice) (i j k l m : ℕ) (v : ℝ) :
    (L.set i j k l m v).width = L.width := rfl

/-- Each single-link update of the sweep neither panics nor changes the
width, at a link whose coordinates and axis are in range. -/
theorem specSweepStep_ne_oob (beta : ℝ) (fuel : ℕ) (W : ℕ) (lk : Link)
    (hlk : lk.1 < W ∧ lk.2.1 < W ∧ lk.2.2.1 < W ∧ lk.2.2.2.1 < W ∧ lk.2.2.2.2 < 4)
    (st : Lattice × RngState) (hst : st.1.width = W) :
    specSweepStep beta fuel st lk ≠ .error .oob ∧
      ∀ st2, specSweepStep beta fuel st lk = .ok st2 → st2.1.width = W := by
  obtain ⟨hi, hj, hk, hl, hm⟩ := hlk
  rw [← hst] at hi hj hk hl
  unfold specSweepStep
  rw [plaquettes_without_link_eq st.1 hi hj hk hl hm, bind_ok]
  cases hsamp : sample_theta
      (Complex.abs (specStaple st.1 (lk.1, lk.2.1, lk.2.2.1, lk.2.2.2.1) lk.2.2.2.2))
      beta fuel st.2 with
  | error e =>
    rw [bind_error]
    have he : e ≠ Err.oob := by
      intro heq
      subst heq
      exact sampleThetaLoop_ne_oob _ fuel st.2 hsamp
    refine ⟨fun heq => he (by injection heq), ?_⟩
    intro st2 hst2
    exact absurd hst2 (by simp)
  | ok samp =>
    rw [bind_ok]
    refine ⟨by simp, ?_⟩
    intro st2 hst2
    injection hst2 with hst2
    rw [← hst2]
    exact hst

/-- Conjunction claimed by C8: average_action succeeds, the staple
computation succeeds at every in-range link, and the sweep can never raise
the out-of-bounds panic, whatever the coupling, fuel and random tape. -/
def SafetyClaim (L : Lattice) : Prop :=
  (∃ r : ℝ, L.average_action = .ok r) ∧
  (∀ i j k l m : ℕ, i < L.width → j < L.width → k < L.width → l < L.width → m < 4 →
    ∃ z : ℂ, L.plaquettes_without_link i j k l m = .ok z) ∧
  (∀ (beta : ℝ) (fuel : ℕ) (rng : RngState),
    L.heatbath_sweep beta fuel rng ≠ .error .oob)

/-- C8: with W > 0 every neighbor offset is wrapped modulo W before access,
so average_action, the staple computation and heatbath_sweep never perform
an out-of-bounds access. -/
theorem C8_no_out_of_bounds (L : Lattice) (hW : 0 < L.width) : SafetyClaim L := by
  refine ⟨⟨_, average_action_eq L⟩, ?_, ?_⟩
  · intro i j k l m hi hj hk hl hm
    exact ⟨_, plaquettes_without_link_eq L hi hj hk hl hm⟩
  · intro beta fuel rng
    rw [heatbath_sweep_eq_fold]
    refine (foldlM_ne_oob (linkOrder L.width) (specSweepStep beta fuel) L.width
      ?_ (L, rng) rfl).1
    intro lk hlk st hst
    exact specSweepStep_ne_oob beta fuel L.width lk
      ((linkOrder_mem L.width lk).mp hlk) st hst

/-- C8 witness: the theorem applied to the width-1 uniform lattice. -/
theorem C8_witness :
    0 < (Lattice.new_uniform 1).width ∧ SafetyClaim (Lattice.new_uniform 1) :=
  ⟨Nat.one_pos, C8_no_out_of_bounds (Lattice.new_uniform 1) Nat.one_pos⟩

end LGT
